import Mathlib

/-!
Verification of the two cache components of this repository.

Part 1 (`part_1.py`): a capacity-bounded recency ("LRU") cache keyed by
inclusive integer ranges, together with range-sum and point-update helpers
over a mutable integer sequence.  The Python `OrderedDict` is modelled as a
list of key/value entries kept in recency order: the head is the
least-recently-used entry and the tail end is the most-recently-used one.

Part 2 (`part_2.py`): a splay tree used as an unbounded memo table, together
with the two memoized Fibonacci functions.  The pointer structure with parent
back-references is modelled as a functional binary tree plus an explicit
zipper: a node `x` together with the list of frames from `x` up to the root
represents exactly the in-place tree of the source, and the bottom-up splay
loop becomes structural recursion on that frame list.
-/

/-! ## Part 1: the recency cache -/

/-- Key of a cache entry: the inclusive range `(left, right)`. -/
abbrev RKey := Int × Int

/-- One cache entry: range key and cached aggregate value. -/
abbrev Entry := RKey × Int

/-- Membership test of `OrderedDict`: first entry with the given key. -/
def dictFind (l : List Entry) (k : RKey) : Option Entry :=
  l.find? (fun e => e.1 == k)

/-- Model of `OrderedDict.move_to_end(key)`: if the key is present, its entry
moves to the most-recently-used end; otherwise the dictionary is unchanged. -/
def dictMove (l : List Entry) (k : RKey) : List Entry :=
  match dictFind l k with
  | some e => l.filter (fun e2 => !(e2.1 == k)) ++ [e]
  | none => l

/-- Model of dict assignment `d[key] = value`: overwrite in place when the
key is present, append at the most-recently-used end otherwise. -/
def dictAssign (l : List Entry) (k : RKey) (v : Int) : List Entry :=
  match dictFind l k with
  | some _ => l.map (fun e => if e.1 == k then (k, v) else e)
  | none => l ++ [(k, v)]

/-- State of `LRUCache` from `part_1.py`: the configured capacity and the
entry list in recency order (head = least recently used). -/
structure LRUCache where
  capacity : Int
  cache : List Entry
deriving DecidableEq

/-- Constructor `LRUCache.__init__`: stores the capacity unchecked and starts
from an empty ordered dictionary. -/
def LRUCache.init (capacity : Int) : LRUCache :=
  ⟨capacity, []⟩

/-- Method `LRUCache.get`: on a hit, move the entry to the most-recently-used
end and return its value; on a miss return `-1` and leave the cache alone. -/
def LRUCache.get (c : LRUCache) (key : RKey) : Int × LRUCache :=
  match dictFind c.cache key with
  | some e => (e.2, ⟨c.capacity, dictMove c.cache key⟩)
  | none => (-1, c)

/-- Lines 23–25 of `LRUCache.put`: conditional `move_to_end` followed by the
dict assignment, before the capacity check. -/
def LRUCache.putAssign (c : LRUCache) (key : RKey) (value : Int) : List Entry :=
  dictAssign (dictMove c.cache key) key value

/-- Method `LRUCache.put`: insert or overwrite at the most-recently-used end,
then, if the entry count exceeds the capacity, drop the single entry at the
least-recently-used end (`popitem(last=False)`). -/
def LRUCache.put (c : LRUCache) (key : RKey) (value : Int) : LRUCache :=
  if ((c.putAssign key value).length : Int) > c.capacity then
    ⟨c.capacity, (c.putAssign key value).tail⟩
  else ⟨c.capacity, c.putAssign key value⟩

/-- Whether the range key contains the mutated position. -/
def coversB (index : Int) (key : RKey) : Bool :=
  decide (key.1 ≤ index ∧ index ≤ key.2)

/-- Method `LRUCache.invalidate_ranges_containing`: iterate over a snapshot of
the keys and delete every entry whose range contains `index`. -/
def LRUCache.invalidate (c : LRUCache) (index : Int) : LRUCache :=
  ⟨c.capacity,
    (c.cache.map Prod.fst).foldl
      (fun acc key =>
        if coversB index key then acc.filter (fun e => !(e.1 == key)) else acc)
      c.cache⟩

/-- One call on the cache interface. -/
inductive CacheOp where
  | get (key : RKey)
  | put (key : RKey) (value : Int)
  | inval (index : Int)
deriving DecidableEq

/-- Apply one cache call, keeping only the cache state. -/
def LRUCache.applyOp (c : LRUCache) : CacheOp → LRUCache
  | .get key => (c.get key).2
  | .put key value => c.put key value
  | .inval index => c.invalidate index

/-- Run a sequence of cache calls. -/
def runOps (ops : List CacheOp) (c : LRUCache) : LRUCache :=
  ops.foldl LRUCache.applyOp c

/-! ### The array helpers -/

/-- Clamp one endpoint of a Python slice of a list of length `n`:
negative indices count from the end, everything is clamped into `[0, n]`. -/
def sliceIdx (n : Nat) (i : Int) : Nat :=
  if i < 0 then ((n : Int) + i).toNat else min i.toNat n

/-- Python slice `a[start:stop]` (step 1) on a list of integers. -/
def pySlice (a : List Int) (start stop : Int) : List Int :=
  (a.take (sliceIdx a.length stop)).drop (sliceIdx a.length start)

/-- Function `range_sum_no_cache`: `sum(array[left : right + 1])`. -/
def range_sum_no_cache (a : List Int) (left right : Int) : Int :=
  (pySlice a left (right + 1)).sum

/-- Effective index of Python element access: negative indices count from the
end of the sequence. -/
def pyIndex (a : List Int) (index : Int) : Int :=
  if index < 0 then index + (a.length : Int) else index

/-- Python element assignment `a[index] = value`: negative indices count from
the end; an index outside `[-len, len)` raises `IndexError`, modelled as
`none`. -/
def pySetItem (a : List Int) (index value : Int) : Option (List Int) :=
  if 0 ≤ pyIndex a index ∧ pyIndex a index < (a.length : Int) then
    some (a.set (pyIndex a index).toNat value)
  else none

/-- Function `update_no_cache`: plain element assignment. -/
def update_no_cache (a : List Int) (index value : Int) : Option (List Int) :=
  pySetItem a index value

/-- Function `range_sum_with_cache`: consult the cache under key
`(left, right)`; a result of `-1` counts as a miss and forces recomputation
by summation over the slice followed by a `put`. -/
def range_sum_with_cache (a : List Int) (left right : Int) (cache : LRUCache) :
    Int × LRUCache :=
  let key := (left, right)
  let res := cache.get key
  if res.1 = -1 then
    let s := (pySlice a left (right + 1)).sum
    (s, res.2.put key s)
  else (res.1, res.2)

/-- Function `update_with_cache`: write `array[index] = value`, then purge
every cached range containing `index`.  When the assignment raises, the
invalidation is never reached. -/
def update_with_cache (a : List Int) (index value : Int) (cache : LRUCache) :
    Option (List Int × LRUCache) :=
  match pySetItem a index value with
  | some a2 => some (a2, cache.invalidate index)
  | none => none

/-- One call of the computational layer built on the cache. -/
inductive ArrOp where
  | rangeSum (left right : Int)
  | update (index value : Int)
deriving DecidableEq

/-- Validity of one call against an array of length `n`: the range and update
indices denote real positions (the caller precondition of the spec). -/
def opValidB (n : Nat) : ArrOp → Bool
  | .rangeSum left right => decide (0 ≤ left ∧ left ≤ right ∧ right < (n : Int))
  | .update index _ => decide (0 ≤ index ∧ index < (n : Int))

/-- Apply one call of the computational layer to the array/cache state.  An
out-of-bounds update raises in the source; the state is kept unchanged here,
and the coherence theorem only quantifies over valid calls, where this
branch is unreachable. -/
def stepOp : List Int × LRUCache → ArrOp → List Int × LRUCache
  | (a, c), .rangeSum left right => (a, (range_sum_with_cache a left right c).2)
  | (a, c), .update index value =>
    match update_with_cache a index value c with
    | some s => s
    | none => (a, c)

/-- Run a sequence of range-sum and update calls. -/
def runArr (ops : List ArrOp) (s : List Int × LRUCache) : List Int × LRUCache :=
  ops.foldl stepOp s

/-- Cache coherence: every cached entry has an in-bounds range key and its
value is the true range sum of the current array. -/
def coherent (a : List Int) (c : LRUCache) : Prop :=
  ∀ e ∈ c.cache,
    0 ≤ e.1.1 ∧ e.1.1 ≤ e.1.2 ∧ e.1.2 < (a.length : Int) ∧
      e.2 = range_sum_no_cache a e.1.1 e.1.2

/-! ## Part 2: the splay tree -/

/-- Functional view of the `_Node` pointer structure: a binary tree of
key/value nodes.  Parent pointers are represented by the zipper below. -/
inductive SplayTree where
  | nil
  | node (key value : Int) (left right : SplayTree)
deriving DecidableEq

/-- Which child slot of its parent a node occupies. -/
inductive Dir where
  | L
  | R
deriving DecidableEq

/-- One step of the path from a node up to the root: the parent's key and
value, the side on which the node hangs, and the sibling subtree. -/
structure Frame where
  dir : Dir
  key : Int
  value : Int
  sibling : SplayTree
deriving DecidableEq

/-- Rebuild the whole tree from a subtree and its path to the root, without
restructuring: the tree the source holds just before `_splay` runs. -/
def plug : SplayTree → List Frame → SplayTree
  | x, [] => x
  | x, ⟨Dir.L, k, v, sib⟩ :: rest => plug (SplayTree.node k v x sib) rest
  | x, ⟨Dir.R, k, v, sib⟩ :: rest => plug (SplayTree.node k v sib x) rest

/-- Method `SplayTree._splay`, one loop iteration per one or two frames: zig
when the parent is the root, zig-zig when node and parent hang on the same
side (rotate the grandparent pair first), zig-zag otherwise (double rotation).
Each case is the net effect of the source's `_left_rotate`/`_right_rotate`
calls on the pointer structure. -/
def splay : SplayTree → List Frame → SplayTree
  | x, [] => x
  | SplayTree.node xk xv xl xr, ⟨Dir.L, k, v, sib⟩ :: [] =>
      SplayTree.node xk xv xl (SplayTree.node k v xr sib)
  | SplayTree.node xk xv xl xr, ⟨Dir.R, k, v, sib⟩ :: [] =>
      SplayTree.node xk xv (SplayTree.node k v sib xl) xr
  | SplayTree.node xk xv xl xr, ⟨Dir.L, pk, pv, ps⟩ :: ⟨Dir.L, gk, gv, gs⟩ :: rest =>
      splay (SplayTree.node xk xv xl (SplayTree.node pk pv xr (SplayTree.node gk gv ps gs))) rest
  | SplayTree.node xk xv xl xr, ⟨Dir.R, pk, pv, ps⟩ :: ⟨Dir.R, gk, gv, gs⟩ :: rest =>
      splay (SplayTree.node xk xv (SplayTree.node pk pv (SplayTree.node gk gv gs ps) xl) xr) rest
  | SplayTree.node xk xv xl xr, ⟨Dir.L, pk, pv, ps⟩ :: ⟨Dir.R, gk, gv, gs⟩ :: rest =>
      splay (SplayTree.node xk xv (SplayTree.node gk gv gs xl) (SplayTree.node pk pv xr ps)) rest
  | SplayTree.node xk xv xl xr, ⟨Dir.R, pk, pv, ps⟩ :: ⟨Dir.L, gk, gv, gs⟩ :: rest =>
      splay (SplayTree.node xk xv (SplayTree.node pk pv ps xl) (SplayTree.node gk gv xr gs)) rest
  | SplayTree.nil, _ => SplayTree.nil

/-- Method `SplayTree._right_rotate`, viewed locally at the rotated node:
when the left child is missing the source returns without change. -/
def rightRotate : SplayTree → SplayTree
  | SplayTree.node k v (SplayTree.node lk lv a b) c => SplayTree.node lk lv a (SplayTree.node k v b c)
  | t => t

/-- Method `SplayTree._left_rotate`, viewed locally at the rotated node. -/
def leftRotate : SplayTree → SplayTree
  | SplayTree.node k v a (SplayTree.node rk rv b c) => SplayTree.node rk rv (SplayTree.node k v a b) c
  | t => t

/-- In-order traversal of the key/value pairs. -/
def SplayTree.inorder : SplayTree → List (Int × Int)
  | .nil => []
  | .node k v l r => l.inorder ++ (k, v) :: r.inorder

/-- In-order key sequence. -/
def SplayTree.keys (t : SplayTree) : List Int :=
  t.inorder.map Prod.fst

/-- Number of nodes. -/
def SplayTree.size : SplayTree → Nat
  | .nil => 0
  | .node _ _ l r => l.size + r.size + 1

/-- Key at the root, when the tree is not empty. -/
def SplayTree.rootKey : SplayTree → Option Int
  | .nil => none
  | .node k _ _ _ => some k

/-- The descent loop shared by `_find_node` and `insert`: the key of the last
node visited when searching for `key` (the found node on a hit, the node with
the missing child on a miss), `none` on the empty tree. -/
def descendLast : SplayTree → Int → Option Int
  | SplayTree.nil, _ => none
  | SplayTree.node k _ l r, key =>
    if key = k then some k
    else if key < k then
      if l = SplayTree.nil then some k else descendLast l key
    else
      if r = SplayTree.nil then some k else descendLast r key

/-- Method `SplayTree._find_node` combined with `get`, carrying the zipper
context built during the descent: splay the found node and return its value,
or splay the last visited node and return `none`. -/
def findGo : SplayTree → Int → List Frame → Option Int × SplayTree
  | SplayTree.nil, _, _ => (none, SplayTree.nil)
  | SplayTree.node k v l r, key, ctx =>
    if key = k then (some v, splay (SplayTree.node k v l r) ctx)
    else if key < k then
      if l = SplayTree.nil then (none, splay (SplayTree.node k v l r) ctx)
      else findGo l key (⟨Dir.L, k, v, r⟩ :: ctx)
    else
      if r = SplayTree.nil then (none, splay (SplayTree.node k v l r) ctx)
      else findGo r key (⟨Dir.R, k, v, l⟩ :: ctx)

/-- Method `SplayTree.get`: the empty tree answers `none` without any
adjustment, otherwise the descent runs from the root with an empty context. -/
def SplayTree.get (t : SplayTree) (key : Int) : Option Int × SplayTree :=
  match t with
  | SplayTree.nil => (none, SplayTree.nil)
  | SplayTree.node k v l r => findGo (SplayTree.node k v l r) key []

/-- Method `SplayTree.insert`, descent with context: overwrite the value in
place and splay the node on an existing key, otherwise create the node in the
missing child slot and splay it. -/
def insertGo : SplayTree → Int → Int → List Frame → SplayTree
  | SplayTree.nil, key, value, _ => SplayTree.node key value SplayTree.nil SplayTree.nil
  | SplayTree.node k v l r, key, value, ctx =>
    if key = k then splay (SplayTree.node k value l r) ctx
    else if key < k then
      if l = SplayTree.nil then
        splay (SplayTree.node key value SplayTree.nil SplayTree.nil) (⟨Dir.L, k, v, r⟩ :: ctx)
      else insertGo l key value (⟨Dir.L, k, v, r⟩ :: ctx)
    else
      if r = SplayTree.nil then
        splay (SplayTree.node key value SplayTree.nil SplayTree.nil) (⟨Dir.R, k, v, l⟩ :: ctx)
      else insertGo r key value (⟨Dir.R, k, v, l⟩ :: ctx)

/-- Method `SplayTree.insert`: a first node becomes the root directly and is
not splayed; otherwise the descent runs from the root. -/
def SplayTree.insert (t : SplayTree) (key value : Int) : SplayTree :=
  match t with
  | SplayTree.nil => SplayTree.node key value SplayTree.nil SplayTree.nil
  | SplayTree.node k v l r => insertGo (SplayTree.node k v l r) key value []

/-- Plain binary-search-tree insertion without splaying; used to describe the
shape of `insert`'s result up to in-order traversal. -/
def rawInsert : SplayTree → Int → Int → SplayTree
  | SplayTree.nil, key, value => SplayTree.node key value SplayTree.nil SplayTree.nil
  | SplayTree.node k v l r, key, value =>
    if key = k then SplayTree.node k value l r
    else if key < k then SplayTree.node k v (rawInsert l key value) r
    else SplayTree.node k v l (rawInsert r key value)

/-- One call on the splay-tree interface. -/
inductive STreeOp where
  | get (key : Int)
  | insert (key value : Int)
deriving DecidableEq

/-- Apply one splay-tree call, keeping only the tree state. -/
def SplayTree.applyOp (t : SplayTree) : STreeOp → SplayTree
  | .get key => (t.get key).2
  | .insert key value => t.insert key value

/-- Run a sequence of splay-tree calls. -/
def runTree (ops : List STreeOp) (t : SplayTree) : SplayTree :=
  ops.foldl SplayTree.applyOp t

/-! ### The memoized Fibonacci functions -/

/-- Function `fibonacci_lru`: with an unbounded memo table the cache is
observationally transparent, so the function is its plain recursion. -/
def fibonacci_lru (n : Int) : Int :=
  if n < 2 then n
  else fibonacci_lru (n - 1) + fibonacci_lru (n - 2)
termination_by n.toNat
decreasing_by
  all_goals omega

/-- Function `fibonacci_splay`: memoized recursion through the splay tree,
threading the tree state (a `get` splays the tree even on a miss). -/
def fibonacci_splay (n : Int) (tree : SplayTree) : Int × SplayTree :=
  match (tree.get n).1 with
  | some v => (v, (tree.get n).2)
  | none =>
    if n < 2 then (n, ((tree.get n).2).insert n n)
    else
      ((fibonacci_splay (n - 1) (tree.get n).2).1
          + (fibonacci_splay (n - 2) (fibonacci_splay (n - 1) (tree.get n).2).2).1,
        ((fibonacci_splay (n - 2) (fibonacci_splay (n - 1) (tree.get n).2).2).2).insert n
          ((fibonacci_splay (n - 1) (tree.get n).2).1
            + (fibonacci_splay (n - 2) (fibonacci_splay (n - 1) (tree.get n).2).2).1))
termination_by n.toNat
decreasing_by
  all_goals omega

/-- Memo-table soundness for the Fibonacci computation: every pair stored in
the tree is a correct memo entry. -/
def FibInv (t : SplayTree) : Prop :=
  ∀ p ∈ t.inorder, p.2 = fibonacci_lru p.1

/-! ## Lemmas: the ordered-dictionary model -/

theorem mem_of_mem_dictMove {l : List Entry} {k : RKey} {e : Entry}
    (h : e ∈ dictMove l k) : e ∈ l := by
  unfold dictMove at h
  cases hf : dictFind l k with
  | none => rw [hf] at h; exact h
  | some f =>
    rw [hf] at h
    rcases List.mem_append.1 h with h1 | h1
    · exact List.mem_of_mem_filter h1
    · rw [List.mem_singleton] at h1
      subst h1
      exact List.mem_of_find?_eq_some hf

theorem length_dictMove_le (l : List Entry) (k : RKey) :
    (dictMove l k).length ≤ l.length := by
  unfold dictMove
  cases hf : dictFind l k with
  | none => exact le_refl _
  | some f =>
    have hf2 : l.find? (fun e => e.1 == k) = some f := hf
    have hmem : f ∈ l := List.mem_of_find?_eq_some hf2
    have hp := List.find?_some hf2
    have hlt : (l.filter (fun e2 => !(e2.1 == k))).length < l.length := by
      refine List.length_filter_lt_length_iff_exists.2 ⟨f, hmem, ?_⟩
      simpa using hp
    rw [List.length_append, List.length_singleton]
    omega

theorem mem_of_mem_dictAssign {l : List Entry} {k : RKey} {v : Int} {e : Entry}
    (h : e ∈ dictAssign l k v) : e = (k, v) ∨ e ∈ l := by
  unfold dictAssign at h
  cases hf : dictFind l k with
  | none =>
    rw [hf] at h
    rcases List.mem_append.1 h with h1 | h1
    · exact Or.inr h1
    · rw [List.mem_singleton] at h1
      exact Or.inl h1
  | some f =>
    rw [hf] at h
    rcases List.mem_map.1 h with ⟨e0, he0, heq⟩
    split at heq
    · exact Or.inl heq.symm
    · exact Or.inr (heq ▸ he0)

theorem length_dictAssign_le (l : List Entry) (k : RKey) (v : Int) :
    (dictAssign l k v).length ≤ l.length + 1 := by
  unfold dictAssign
  cases hf : dictFind l k with
  | none => rw [List.length_append, List.length_singleton]
  | some f => rw [List.length_map]; omega

theorem putAssign_ne_nil (c : LRUCache) (k : RKey) (v : Int) :
    c.putAssign k v ≠ [] := by
  unfold LRUCache.putAssign dictAssign
  cases hf : dictFind (dictMove c.cache k) k with
  | none => simp
  | some f =>
    have hmem : f ∈ dictMove c.cache k := List.mem_of_find?_eq_some hf
    intro hnil
    rw [List.map_eq_nil_iff] at hnil
    rw [hnil] at hmem
    exact List.not_mem_nil f hmem

theorem mem_of_mem_put {c : LRUCache} {k : RKey} {v : Int} {e : Entry}
    (h : e ∈ (c.put k v).cache) : e = (k, v) ∨ e ∈ c.cache := by
  unfold LRUCache.put at h
  have h2 : e ∈ c.putAssign k v := by
    split at h
    · exact List.mem_of_mem_tail h
    · exact h
  rcases mem_of_mem_dictAssign h2 with h3 | h3
  · exact Or.inl h3
  · exact Or.inr (mem_of_mem_dictMove h3)

theorem length_put_le {c : LRUCache} (k : RKey) (v : Int)
    (h : (c.cache.length : Int) ≤ c.capacity) :
    ((c.put k v).cache.length : Int) ≤ c.capacity := by
  have h1 : (c.putAssign k v).length ≤ c.cache.length + 1 := by
    unfold LRUCache.putAssign
    calc (dictAssign (dictMove c.cache k) k v).length
        ≤ (dictMove c.cache k).length + 1 := length_dictAssign_le _ _ _
      _ ≤ c.cache.length + 1 := by have := length_dictMove_le c.cache k; omega
  unfold LRUCache.put
  split
  · rename_i hgt
    show (((c.putAssign k v).tail).length : Int) ≤ c.capacity
    rw [List.length_tail]
    omega
  · rename_i hle
    show ((c.putAssign k v).length : Int) ≤ c.capacity
    omega

theorem capacity_get (c : LRUCache) (k : RKey) : ((c.get k).2).capacity = c.capacity := by
  unfold LRUCache.get
  split <;> rfl

theorem capacity_put (c : LRUCache) (k : RKey) (v : Int) :
    (c.put k v).capacity = c.capacity := by
  unfold LRUCache.put
  split <;> rfl

theorem capacity_invalidate (c : LRUCache) (i : Int) :
    (c.invalidate i).capacity = c.capacity := rfl

theorem length_get_le (c : LRUCache) (k : RKey) :
    ((c.get k).2).cache.length ≤ c.cache.length := by
  unfold LRUCache.get
  split
  · exact length_dictMove_le c.cache k
  · exact le_refl _

/-! ## Lemmas: interval invalidation -/

theorem invalidate_foldl (index : Int) :
    ∀ (ks : List RKey) (acc : List Entry),
      ks.foldl
          (fun acc key =>
            if coversB index key then acc.filter (fun e => !(e.1 == key)) else acc)
          acc
        = acc.filter (fun e => !(coversB index e.1 && decide (e.1 ∈ ks)))
  | [], acc => by simp
  | k :: ks, acc => by
    rw [List.foldl_cons, invalidate_foldl index ks]
    by_cases hc : coversB index k = true
    · rw [if_pos hc, List.filter_filter]
      refine List.filter_congr ?_
      intro e _
      by_cases hek : e.1 = k
      · simp [hek, hc]
      · simp [hek]
    · rw [if_neg hc]
      refine List.filter_congr ?_
      intro e _
      by_cases hek : e.1 = k
      · have hcf : coversB index k = false := by
          revert hc
          cases coversB index k <;> simp
        simp [hek, hcf]
      · simp [hek]

theorem invalidate_eq_filter (c : LRUCache) (index : Int) :
    (c.invalidate index).cache = c.cache.filter (fun e => !(coversB index e.1)) := by
  unfold LRUCache.invalidate
  rw [invalidate_foldl]
  refine List.filter_congr ?_
  intro e he
  have hmem : e.1 ∈ c.cache.map Prod.fst := List.mem_map_of_mem Prod.fst he
  simp [hmem]

theorem mem_of_mem_invalidate {c : LRUCache} {i : Int} {e : Entry}
    (h : e ∈ (c.invalidate i).cache) : e ∈ c.cache ∧ coversB i e.1 = false := by
  rw [invalidate_eq_filter] at h
  have h2 := List.mem_filter.1 h
  refine ⟨h2.1, ?_⟩
  have := h2.2
  simpa using this

example : range_sum_no_cache [1, 2, 3, 4, 5] 0 4 = 15 := by decide
example : range_sum_no_cache [1, 2, 3] 0 10 = 6 := by decide
example : range_sum_no_cache [1, 2, 3] 2 0 = 0 := by decide
example : range_sum_no_cache [1, 2, 3, 4, 5] 0 (-2) = 10 := by decide
example : update_no_cache [1, 2, 3] 5 9 = none := by decide
example : update_no_cache [1, 2, 3] (-1) 9 = some [1, 2, 9] := by decide
example :
    (runOps [CacheOp.put (0, 2) 5, CacheOp.put (1, 3) 9, CacheOp.get (0, 2),
      CacheOp.put (4, 6) 1] (LRUCache.init 2)).cache = [((0, 2), 5), ((4, 6), 1)] := by
  decide

/-! ## Claim C7: invalidation precision and frame -/

/-- C7: `invalidate_ranges_containing p` keeps exactly the entries whose range
does not contain `p`, in their original recency order: the surviving list is
the order-preserving filter of the old one (hence a sublist), and every entry
whose key `(l, r)` has `p < l` or `r < p` survives. -/
theorem C7_invalidation_precision_frame (c : LRUCache) (p : Int) :
    (c.invalidate p).cache = c.cache.filter (fun e => !(coversB p e.1)) ∧
      (c.invalidate p).cache.Sublist c.cache ∧
      ∀ e ∈ c.cache, (p < e.1.1 ∨ e.1.2 < p) → e ∈ (c.invalidate p).cache := by
  refine ⟨invalidate_eq_filter c p, ?_, ?_⟩
  · rw [invalidate_eq_filter c p]
    exact List.filter_sublist c.cache
  · intro e he hdisj
    rw [invalidate_eq_filter c p]
    refine List.mem_filter.2 ⟨he, ?_⟩
    simp only [coversB, Bool.not_eq_true', decide_eq_false_iff_not]
    omega

/-- Witness for C7 at a concrete cache: updating position 3 keeps the
disjoint cached range `(4, 6)`. -/
theorem C7_witness :
    ((4, 6), 1) ∈ ((LRUCache.mk 2 [((0, 2), 5), ((4, 6), 1)]).invalidate 3).cache :=
  (C7_invalidation_precision_frame (LRUCache.mk 2 [((0, 2), 5), ((4, 6), 1)]) 3).2.2
    ((4, 6), 1) (by decide) (by decide)

/-! ## Claim C2: capacity invariant with single eviction -/

theorem runOps_length_le (cap : Int) :
    ∀ (ops : List CacheOp) (c : LRUCache), c.capacity = cap →
      (c.cache.length : Int) ≤ cap → ((runOps ops c).cache.length : Int) ≤ cap
  | [], c, _, hlen => hlen
  | op :: ops, c, hcap, hlen => by
    rw [runOps, List.foldl_cons]
    have hstep : ((c.applyOp op).cache.length : Int) ≤ cap ∧ (c.applyOp op).capacity = cap := by
      cases op with
      | get k =>
        refine ⟨?_, by rw [LRUCache.applyOp, capacity_get, hcap]⟩
        rw [LRUCache.applyOp]
        have := length_get_le c k
        omega
      | put k v =>
        refine ⟨?_, by rw [LRUCache.applyOp, capacity_put, hcap]⟩
        have := length_put_le k v (c := c) (hcap ▸ hlen)
        rw [hcap] at this
        exact this
      | inval i =>
        refine ⟨?_, by rw [LRUCache.applyOp, capacity_invalidate, hcap]⟩
        rw [LRUCache.applyOp, invalidate_eq_filter]
        have := List.length_filter_le (fun e => !(coversB i e.1)) c.cache
        omega
    exact runOps_length_le cap ops (c.applyOp op) hstep.2 hstep.1

/-- C2: starting from a fresh cache of capacity at least 1, every sequence of
`get`/`put`/`invalidate_ranges_containing` calls leaves at most `capacity`
entries; a `put` whose insert overshoots the capacity removes exactly one
entry, the head of the post-insert recency list (the current least recently
used), after the insert; a `put` that stays within capacity removes none. -/
theorem C2_capacity_single_eviction :
    (∀ (cap : Int) (ops : List CacheOp), 1 ≤ cap →
        ((runOps ops (LRUCache.init cap)).cache.length : Int) ≤ cap) ∧
      (∀ (c : LRUCache) (k : RKey) (v : Int),
        ((c.putAssign k v).length : Int) > c.capacity →
          (c.put k v).cache = (c.putAssign k v).tail ∧
            (c.put k v).cache.length + 1 = (c.putAssign k v).length) ∧
      (∀ (c : LRUCache) (k : RKey) (v : Int),
        ¬ ((c.putAssign k v).length : Int) > c.capacity →
          (c.put k v).cache = c.putAssign k v) := by
  refine ⟨?_, ?_, ?_⟩
  · intro cap ops hcap
    exact runOps_length_le cap ops (LRUCache.init cap) rfl (by simp [LRUCache.init]; omega)
  · intro c k v hover
    have hne := putAssign_ne_nil c k v
    constructor
    · rw [LRUCache.put, if_pos hover]
    · rw [LRUCache.put, if_pos hover]
      show ((c.putAssign k v).tail).length + 1 = (c.putAssign k v).length
      rw [List.length_tail]
      have : (c.putAssign k v).length ≠ 0 := by
        intro h0
        exact hne (List.length_eq_zero.1 h0)
      omega
  · intro c k v hle
    rw [LRUCache.put, if_neg hle]

/-- Witness for C2 at concrete inputs: two puts into a fresh capacity-1 cache
stay within the bound, and a put into a full capacity-1 cache drops exactly
the least-recently-used entry. -/
theorem C2_witness :
    ((runOps [CacheOp.put (0, 1) 3, CacheOp.put (2, 4) 7]
        (LRUCache.init 1)).cache.length : Int) ≤ 1 ∧
      ((LRUCache.mk 1 [((0, 1), 3)]).put (2, 4) 7).cache
          = ((LRUCache.mk 1 [((0, 1), 3)]).putAssign (2, 4) 7).tail ∧
        ((LRUCache.mk 1 [((0, 1), 3)]).put (2, 4) 7).cache.length + 1
          = ((LRUCache.mk 1 [((0, 1), 3)]).putAssign (2, 4) 7).length :=
  ⟨C2_capacity_single_eviction.1 1 [CacheOp.put (0, 1) 3, CacheOp.put (2, 4) 7] (by decide),
    C2_capacity_single_eviction.2.1 (LRUCache.mk 1 [((0, 1), 3)]) (2, 4) 7 (by decide)⟩

/-! ## Claim C5: construction-time capacity validation -/

/-- Counterexample to C5: `LRUCache(0)` does not fail; the constructor
performs no validation, and the produced cache supports `put` and `get`
(every entry is immediately self-evicted at capacity 0). -/
theorem C5_counterexample :
    (LRUCache.init 0).capacity = 0 ∧ (LRUCache.init 0).cache = [] ∧
      ((LRUCache.init 0).put (0, 0) 5).cache = [] ∧
      (((LRUCache.init 0).put (0, 0) 5).get (0, 0)).1 = -1 := by
  decide

theorem runOps_nonpos_empty {cap : Int} (hcap : cap ≤ 0) :
    ∀ (ops : List CacheOp) (c : LRUCache), c.capacity = cap → c.cache = [] →
      (runOps ops c).cache = [] ∧ (runOps ops c).capacity = cap
  | [], c, hc, hnil => ⟨hnil, hc⟩
  | op :: ops, c, hc, hnil => by
    rw [runOps, List.foldl_cons]
    have hstep : (c.applyOp op).cache = [] ∧ (c.applyOp op).capacity = cap := by
      cases op with
      | get k =>
        rw [LRUCache.applyOp]
        have hfind : dictFind c.cache k = none := by rw [hnil]; rfl
        rw [LRUCache.get, hfind]
        exact ⟨hnil, hc⟩
      | put k v =>
        have hassign : c.putAssign k v = [(k, v)] := by
          rw [LRUCache.putAssign, dictMove, dictAssign]
          rw [hnil]
          rfl
        rw [LRUCache.applyOp, LRUCache.put, hassign, if_pos (by rw [hassign] at *; simp; omega)]
        exact ⟨rfl, hc⟩
      | inval i =>
        rw [LRUCache.applyOp, LRUCache.invalidate]
        rw [hnil]
        exact ⟨rfl, hc⟩
    exact runOps_nonpos_empty hcap ops (c.applyOp op) hstep.2 hstep.1

/-- C5 amended: the constructor rejects nothing.  For every capacity `c ≤ 0`,
`LRUCache(c)` succeeds, records the capacity as given, and yields a
degenerate cache that stays empty after every sequence of operations (each
`put` inserts and then immediately evicts its own entry). -/
theorem C5_nonpositive_capacity_degenerate (cap : Int) (hcap : cap ≤ 0)
    (ops : List CacheOp) :
    (LRUCache.init cap).capacity = cap ∧ (LRUCache.init cap).cache = [] ∧
      (runOps ops (LRUCache.init cap)).cache = [] := by
  refine ⟨rfl, rfl, ?_⟩
  exact (runOps_nonpos_empty hcap ops (LRUCache.init cap) rfl rfl).1

/-- Witness for the amended C5 at capacity `-2` and a concrete call list. -/
theorem C5_witness :
    (LRUCache.init (-2)).capacity = -2 ∧ (LRUCache.init (-2)).cache = [] ∧
      (runOps [CacheOp.put (1, 2) 7, CacheOp.get (1, 2)] (LRUCache.init (-2))).cache = [] :=
  C5_nonpositive_capacity_degenerate (-2) (by decide) [CacheOp.put (1, 2) 7, CacheOp.get (1, 2)]

/-! ## Claim C8: least-recently-used eviction order -/

theorem dictMove_none {l : List Entry} {k : RKey} (h : dictFind l k = none) :
    dictMove l k = l := by
  rw [dictMove, h]

theorem dictAssign_none {l : List Entry} {k : RKey} (v : Int) (h : dictFind l k = none) :
    dictAssign l k v = l ++ [(k, v)] := by
  rw [dictAssign, h]

theorem runOps_puts (kvs : List Entry) (c : LRUCache) :
    runOps (kvs.map fun kv => CacheOp.put kv.1 kv.2) c
      = kvs.foldl (fun c2 kv => c2.put kv.1 kv.2) c := by
  induction kvs generalizing c with
  | nil => rfl
  | cons kv kvs ih =>
    rw [List.map_cons, runOps, List.foldl_cons, List.foldl_cons]
    exact ih (c.put kv.1 kv.2)

theorem puts_fresh (cap : Int) :
    ∀ (kvs : List Entry) (c : LRUCache), c.capacity = cap →
      (kvs.map Prod.fst).Nodup →
      (∀ kv ∈ kvs, ∀ e ∈ c.cache, e.1 ≠ kv.1) →
      ((c.cache.length : Int) + kvs.length ≤ cap) →
      kvs.foldl (fun c2 kv => c2.put kv.1 kv.2) c = ⟨cap, c.cache ++ kvs⟩
  | [], c, hc, _, _, _ => by
    rw [List.foldl_nil, List.append_nil]
    cases c
    simp only at hc
    rw [hc]
  | kv :: kvs, c, hc, hnodup, hfresh, hlen => by
    rw [List.foldl_cons]
    have hfind : dictFind c.cache kv.1 = none := by
      apply List.find?_eq_none.2
      intro e he
      have hne := hfresh kv (List.mem_cons_self kv kvs) e he
      simp [hne]
    have hassign : c.putAssign kv.1 kv.2 = c.cache ++ [kv] := by
      rw [LRUCache.putAssign, dictMove_none hfind, dictAssign_none kv.2 hfind, Prod.mk.eta]
    have hlen2 : (c.cache.length : Int) + 1 ≤ cap := by
      rw [List.length_cons] at hlen
      push_cast at hlen
      omega
    have hput : c.put kv.1 kv.2 = ⟨cap, c.cache ++ [kv]⟩ := by
      rw [LRUCache.put, hassign, if_neg ?_]
      · rw [hc]
      · rw [List.length_append, List.length_singleton, hc]
        push_cast
        omega
    rw [hput]
    have hkvfst : kv.1 ∉ kvs.map Prod.fst := by
      rw [List.map_cons, List.nodup_cons] at hnodup
      exact hnodup.1
    have hfresh2 : ∀ kv2 ∈ kvs, ∀ e ∈ (⟨cap, c.cache ++ [kv]⟩ : LRUCache).cache, e.1 ≠ kv2.1 := by
      intro kv2 hkv2 e he
      simp only at he
      rcases List.mem_append.1 he with he1 | he1
      · exact hfresh kv2 (List.mem_cons_of_mem kv hkv2) e he1
      · rw [List.mem_singleton] at he1
        subst he1
        intro hkk
        exact hkvfst (hkk ▸ List.mem_map_of_mem Prod.fst hkv2)
    have hlen3 : (((⟨cap, c.cache ++ [kv]⟩ : LRUCache).cache.length : Int) + kvs.length ≤ cap) := by
      show ((c.cache ++ [kv]).length : Int) + kvs.length ≤ cap
      rw [List.length_append, List.length_singleton]
      rw [List.length_cons] at hlen
      push_cast at hlen ⊢
      omega
    have hnodup2 : (kvs.map Prod.fst).Nodup := by
      rw [List.map_cons, List.nodup_cons] at hnodup
      exact hnodup.2
    rw [puts_fresh cap kvs ⟨cap, c.cache ++ [kv]⟩ rfl hnodup2 hfresh2 hlen3]
    rw [List.append_assoc]
    rfl

/-- C8: putting `capacity + 1` pairs with pairwise-distinct keys into a fresh
cache leaves exactly the pairs after the first, in insertion order (the
first-inserted key is the evicted one, the remaining `capacity` keys are
present); and in the spec's concrete capacity-2 scenario the intervening
`get` makes `(0, 2)` most recently used, so `put((4,6),1)` evicts `(1, 3)`
and a subsequent `get((1,3))` misses. -/
theorem C8_lru_eviction_order :
    (∀ (cap : Int) (kvs : List Entry), 1 ≤ cap →
        (kvs.map Prod.fst).Nodup → (kvs.length : Int) = cap + 1 →
        (runOps (kvs.map fun kv => CacheOp.put kv.1 kv.2) (LRUCache.init cap)).cache
          = kvs.tail) ∧
      ((runOps [CacheOp.put (0, 2) 5, CacheOp.put (1, 3) 9, CacheOp.get (0, 2),
            CacheOp.put (4, 6) 1] (LRUCache.init 2)).cache.map Prod.fst
          = [(0, 2), (4, 6)] ∧
        ((runOps [CacheOp.put (0, 2) 5, CacheOp.put (1, 3) 9, CacheOp.get (0, 2),
            CacheOp.put (4, 6) 1] (LRUCache.init 2)).get (1, 3)).1 = -1) := by
  constructor
  · intro cap kvs hcap hnodup hlen
    rw [runOps_puts]
    have hne : kvs ≠ [] := by
      intro h
      rw [h] at hlen
      simp at hlen
      omega
    obtain ⟨front, last, hkvs⟩ : ∃ front last, kvs = front ++ [last] :=
      ⟨kvs.dropLast, kvs.getLast hne, (List.dropLast_append_getLast hne).symm⟩
    subst hkvs
    rw [List.map_append, List.nodup_append] at hnodup
    rw [List.length_append, List.length_singleton] at hlen
    have hfrontlen : (front.length : Int) = cap := by
      push_cast at hlen
      omega
    rw [List.foldl_append, List.foldl_cons, List.foldl_nil]
    have hfill := puts_fresh cap front (LRUCache.init cap) rfl hnodup.1
      (by intro kv _ e he; exact absurd he (List.not_mem_nil e))
      (by show ((([] : List Entry).length : Int) + front.length ≤ cap); simp; omega)
    rw [hfill]
    show ((⟨cap, [] ++ front⟩ : LRUCache).put last.1 last.2).cache = (front ++ [last]).tail
    have hlastfst : last.1 ∉ front.map Prod.fst := by
      intro hmem
      exact hnodup.2.2 hmem (by simp)
    have hfind : dictFind ((⟨cap, [] ++ front⟩ : LRUCache).cache) last.1 = none := by
      apply List.find?_eq_none.2
      intro e he
      simp only [List.nil_append] at he
      have : e.1 ∈ front.map Prod.fst := List.mem_map_of_mem Prod.fst he
      have hne2 : e.1 ≠ last.1 := fun h => hlastfst (h ▸ this)
      simp [hne2]
    have hassign : (⟨cap, [] ++ front⟩ : LRUCache).putAssign last.1 last.2
        = front ++ [last] := by
      rw [LRUCache.putAssign, dictMove_none hfind, dictAssign_none last.2 hfind, Prod.mk.eta]
      rw [List.nil_append]
    rw [LRUCache.put, hassign, if_pos ?_]
    show ((front ++ [last]).length : Int) > (⟨cap, [] ++ front⟩ : LRUCache).capacity
    rw [List.length_append, List.length_singleton]
    show ((front.length + 1 : Nat) : Int) > cap
    push_cast
    omega
  · constructor
    · decide
    · decide

/-- Witness for C8 at capacity 1 with two distinct keys: the first pair is
evicted, the second remains. -/
theorem C8_witness :
    (runOps ([((0, 0), 1), ((1, 1), 2)].map fun kv => CacheOp.put kv.1 kv.2)
        (LRUCache.init 1)).cache = [((0, 0), 1), ((1, 1), 2)].tail :=
  C8_lru_eviction_order.1 1 [((0, 0), 1), ((1, 1), 2)] (by decide) (by decide) (by decide)

/-! ## Claim C9: the -1 miss sentinel -/

theorem range_sum_with_cache_eq (a : List Int) (l r : Int) (c : LRUCache) :
    range_sum_with_cache a l r c
      = if (c.get (l, r)).1 = -1 then
          (range_sum_no_cache a l r,
            (c.get (l, r)).2.put (l, r) (range_sum_no_cache a l r))
        else ((c.get (l, r)).1, (c.get (l, r)).2) := rfl

theorem dictMove_some {l : List Entry} {k : RKey} {e : Entry} (h : dictFind l k = some e) :
    dictMove l k = l.filter (fun e2 => !(e2.1 == k)) ++ [e] := by
  rw [dictMove, h]

theorem dictAssign_some {l : List Entry} {k : RKey} {e : Entry} (v : Int)
    (h : dictFind l k = some e) :
    dictAssign l k v = l.map (fun e2 => if e2.1 == k then (k, v) else e2) := by
  rw [dictAssign, h]

theorem putAssign_getLast (c : LRUCache) (k : RKey) (v : Int) :
    (c.putAssign k v).getLast? = some (k, v) := by
  rw [LRUCache.putAssign]
  cases hf : dictFind c.cache k with
  | none =>
    rw [dictMove_none hf, dictAssign_none v hf]
    exact List.getLast?_concat c.cache
  | some e =>
    have hf2 : c.cache.find? (fun e2 => e2.1 == k) = some e := hf
    have he1 := List.find?_some hf2
    have hmoved := dictMove_some hf
    have hfind2 : dictFind (dictMove c.cache k) k = some e := by
      rw [hmoved]
      unfold dictFind
      rw [List.find?_append]
      have hnone : (c.cache.filter (fun e2 => !(e2.1 == k))).find? (fun e2 => e2.1 == k)
          = none := by
        apply List.find?_eq_none.2
        intro x hx
        have := (List.mem_filter.1 hx).2
        simp only [Bool.not_eq_true'] at this
        simp [this]
      rw [hnone, Option.none_or]
      simp [he1]
    rw [dictAssign_some v hfind2, hmoved, List.map_append]
    have he1' : e.1 = k := by simpa using he1
    have hmaplast : List.map (fun e2 => if e2.1 == k then (k, v) else e2) [e] = [(k, v)] := by
      simp [he1']
    rw [hmaplast]
    exact List.getLast?_concat _

theorem getLast?_tail_of_two_le {l : List Entry} (h : 2 ≤ l.length) :
    l.tail.getLast? = l.getLast? := by
  cases l with
  | nil => simp at h
  | cons a rest =>
    cases rest with
    | nil => simp at h
    | cons b t => rw [List.tail_cons, List.getLast?_cons_cons]

theorem put_getLast {c : LRUCache} (k : RKey) (v : Int) (hcap : 1 ≤ c.capacity) :
    (c.put k v).cache.getLast? = some (k, v) := by
  rw [LRUCache.put]
  split
  · rename_i hgt
    show ((c.putAssign k v).tail).getLast? = some (k, v)
    rw [getLast?_tail_of_two_le (by omega)]
    exact putAssign_getLast c k v
  · exact putAssign_getLast c k v

/-- C9: the miss result of `LRUCache.get` is the integer `-1`, so a stored
`-1` is indistinguishable from a miss: a get on an absent key returns `-1`
and leaves the cache unchanged; a get on a present key whose stored value is
`-1` also returns `-1`; and `range_sum_with_cache` treats any `-1` answer as
a miss, recomputing the true sum, returning it, and re-storing it at the
most-recently-used end (the re-store is visible whenever the capacity is at
least 1). -/
theorem C9_miss_sentinel_conflation :
    (∀ (c : LRUCache) (k : RKey), dictFind c.cache k = none → c.get k = (-1, c)) ∧
      (∀ (c : LRUCache) (k : RKey) (e : Entry),
        dictFind c.cache k = some e → e.2 = -1 → (c.get k).1 = -1) ∧
      (∀ (a : List Int) (left right : Int) (c : LRUCache),
        (c.get (left, right)).1 = -1 →
          (range_sum_with_cache a left right c).1 = range_sum_no_cache a left right ∧
            (1 ≤ c.capacity →
              (range_sum_with_cache a left right c).2.cache.getLast?
                = some ((left, right), range_sum_no_cache a left right))) := by
  refine ⟨?_, ?_, ?_⟩
  · intro c k h
    rw [LRUCache.get, h]
  · intro c k e h hv
    rw [LRUCache.get, h]
    exact hv
  · intro a left right c hmiss
    rw [range_sum_with_cache_eq, if_pos hmiss]
    refine ⟨rfl, ?_⟩
    intro hcap
    have hcap2 : 1 ≤ ((c.get (left, right)).2).capacity := by
      rw [capacity_get]
      exact hcap
    exact put_getLast (left, right) (range_sum_no_cache a left right) hcap2

/-- Witness for C9 at a concrete cache storing `-1` for key `(0, 2)`: the
stored value is reported as a miss and the sum is recomputed and re-stored. -/
theorem C9_witness :
    ((LRUCache.mk 5 []).get (7, 8) = (-1, LRUCache.mk 5 [])) ∧
      ((LRUCache.mk 5 [((0, 2), -1)]).get (0, 2)).1 = -1 ∧
      (range_sum_with_cache [1, 2, 3] 0 2 (LRUCache.mk 5 [((0, 2), -1)])).1
        = range_sum_no_cache [1, 2, 3] 0 2 ∧
      (range_sum_with_cache [1, 2, 3] 0 2
          (LRUCache.mk 5 [((0, 2), -1)])).2.cache.getLast?
        = some ((0, 2), range_sum_no_cache [1, 2, 3] 0 2) :=
  ⟨C9_miss_sentinel_conflation.1 (LRUCache.mk 5 []) (7, 8) (by decide),
    C9_miss_sentinel_conflation.2.1 (LRUCache.mk 5 [((0, 2), -1)]) (0, 2) ((0, 2), -1)
      (by decide) (by decide),
    (C9_miss_sentinel_conflation.2.2 [1, 2, 3] 0 2
      (LRUCache.mk 5 [((0, 2), -1)]) (by decide)).1,
    (C9_miss_sentinel_conflation.2.2 [1, 2, 3] 0 2
      (LRUCache.mk 5 [((0, 2), -1)]) (by decide)).2 (by decide)⟩

/-! ## Claim C1: cache coherence under mutation -/

theorem sliceIdx_of_nonneg {n : Nat} {i : Int} (h0 : 0 ≤ i) (hn : i ≤ (n : Int)) :
    sliceIdx n i = i.toNat := by
  rw [sliceIdx, if_neg (by omega)]
  exact Nat.min_eq_left (by omega)

theorem pySlice_set_of_not_covers {a : List Int} {l r i : Int} (v : Int)
    (hl : 0 ≤ l) (hlr : l ≤ r) (hr : r < (a.length : Int))
    (hi : 0 ≤ i) (_hin : i < (a.length : Int)) (hout : ¬ (l ≤ i ∧ i ≤ r)) :
    pySlice (a.set i.toNat v) l (r + 1) = pySlice a l (r + 1) := by
  rw [pySlice, pySlice, List.length_set,
    sliceIdx_of_nonneg hl (by omega), sliceIdx_of_nonneg (i := r + 1) (by omega) (by omega)]
  apply List.ext_getElem?
  intro m
  rw [List.getElem?_drop, List.getElem?_drop, List.getElem?_take, List.getElem?_take]
  by_cases hm : l.toNat + m < (r + 1).toNat
  · rw [if_pos hm, if_pos hm, List.getElem?_set, if_neg (by omega)]
  · rw [if_neg hm, if_neg hm]

theorem range_sum_set_of_not_covers {a : List Int} {l r i : Int} (v : Int)
    (hl : 0 ≤ l) (hlr : l ≤ r) (hr : r < (a.length : Int))
    (hi : 0 ≤ i) (hin : i < (a.length : Int)) (hout : ¬ (l ≤ i ∧ i ≤ r)) :
    range_sum_no_cache (a.set i.toNat v) l r = range_sum_no_cache a l r := by
  rw [range_sum_no_cache, range_sum_no_cache,
    pySlice_set_of_not_covers v hl hlr hr hi hin hout]

theorem pyIndex_of_nonneg {a : List Int} {i : Int} (hi : 0 ≤ i) : pyIndex a i = i := by
  rw [pyIndex, if_neg (by omega)]

theorem pySetItem_of_inbounds {a : List Int} {i : Int} (v : Int) (hi : 0 ≤ i)
    (hin : i < (a.length : Int)) :
    pySetItem a i v = some (a.set i.toNat v) := by
  rw [pySetItem, pyIndex_of_nonneg hi, if_pos ⟨hi, hin⟩]

theorem update_with_cache_of_inbounds {a : List Int} {i : Int} (v : Int) (c : LRUCache)
    (hi : 0 ≤ i) (hin : i < (a.length : Int)) :
    update_with_cache a i v c = some (a.set i.toNat v, c.invalidate i) := by
  rw [update_with_cache, pySetItem_of_inbounds v hi hin]

theorem update_with_cache_some {a : List Int} {i v : Int} {c : LRUCache} {a2 : List Int}
    {c2 : LRUCache} (h : update_with_cache a i v c = some (a2, c2)) :
    c2 = c.invalidate i := by
  rw [update_with_cache] at h
  cases hset : pySetItem a i v with
  | none =>
    rw [hset] at h
    exact absurd h (by simp)
  | some a3 =>
    rw [hset] at h
    simp only [Option.some.injEq, Prod.mk.injEq] at h
    exact h.2.symm

theorem get_invalidate_covering (c : LRUCache) {i l r : Int} (hl : l ≤ i) (hr : i ≤ r) :
    ((c.invalidate i).get (l, r)).1 = -1 := by
  have hfind : dictFind (c.invalidate i).cache (l, r) = none := by
    apply List.find?_eq_none.2
    intro e he
    obtain ⟨_, hcov⟩ := mem_of_mem_invalidate he
    intro hbeq
    have he1 : e.1 = (l, r) := by simpa using hbeq
    rw [he1, coversB] at hcov
    exact of_decide_eq_false hcov ⟨hl, hr⟩
  rw [LRUCache.get, hfind]

theorem coherent_get {a : List Int} {c : LRUCache} (h : coherent a c) (k : RKey) :
    coherent a ((c.get k).2) := by
  intro e he
  apply h
  rw [LRUCache.get] at he
  cases hf : dictFind c.cache k with
  | none =>
    rw [hf] at he
    exact he
  | some f =>
    rw [hf] at he
    exact mem_of_mem_dictMove he

theorem coherent_rangeSum {a : List Int} {c : LRUCache} (h : coherent a c)
    {l r : Int} (hl : 0 ≤ l) (hlr : l ≤ r) (hr : r < (a.length : Int)) :
    coherent a ((range_sum_with_cache a l r c).2) := by
  rw [range_sum_with_cache_eq]
  by_cases hm : (c.get (l, r)).1 = -1
  · rw [if_pos hm]
    intro e he
    rcases mem_of_mem_put he with he1 | he1
    · subst he1
      exact ⟨hl, hlr, hr, rfl⟩
    · exact coherent_get h (l, r) e he1
  · rw [if_neg hm]
    exact coherent_get h (l, r)

theorem coherent_update {a : List Int} {c : LRUCache} (h : coherent a c)
    {i : Int} (v : Int) (hi : 0 ≤ i) (hin : i < (a.length : Int)) :
    coherent (a.set i.toNat v) (c.invalidate i) := by
  intro e he
  obtain ⟨hec, hcov⟩ := mem_of_mem_invalidate he
  obtain ⟨h1, h2, h3, h4⟩ := h e hec
  rw [List.length_set]
  refine ⟨h1, h2, h3, ?_⟩
  rw [h4]
  refine (range_sum_set_of_not_covers v h1 h2 h3 hi hin ?_).symm
  rw [coversB] at hcov
  exact of_decide_eq_false hcov

theorem rangeSum_correct {a : List Int} {c : LRUCache} (h : coherent a c) (l r : Int) :
    (range_sum_with_cache a l r c).1 = range_sum_no_cache a l r := by
  rw [range_sum_with_cache_eq]
  by_cases hm : (c.get (l, r)).1 = -1
  · rw [if_pos hm]
  · rw [if_neg hm]
    show (c.get (l, r)).1 = range_sum_no_cache a l r
    cases hf : dictFind c.cache (l, r) with
    | none =>
      rw [LRUCache.get, hf] at hm
      exact absurd rfl hm
    | some e =>
      rw [LRUCache.get, hf]
      show e.2 = range_sum_no_cache a l r
      have hf2 : c.cache.find? (fun e2 => e2.1 == (l, r)) = some e := hf
      have hmem : e ∈ c.cache := List.mem_of_find?_eq_some hf2
      have he1 : e.1 = (l, r) := by
        have := List.find?_some hf2
        simpa using this
      have h4 := (h e hmem).2.2.2
      rw [he1] at h4
      exact h4

theorem coherent_runArr (n : Nat) :
    ∀ (ops : List ArrOp) (a : List Int) (c : LRUCache), a.length = n →
      coherent a c → ops.all (opValidB n) = true →
      (runArr ops (a, c)).1.length = n ∧
        coherent (runArr ops (a, c)).1 (runArr ops (a, c)).2
  | [], a, c, hn, hcoh, _ => ⟨hn, hcoh⟩
  | op :: ops, a, c, hn, hcoh, hvalid => by
    rw [List.all_cons, Bool.and_eq_true] at hvalid
    rw [runArr, List.foldl_cons]
    have hstep : (stepOp (a, c) op).1.length = n ∧
        coherent (stepOp (a, c) op).1 (stepOp (a, c) op).2 := by
      cases op with
      | rangeSum l r =>
        obtain ⟨h1, h2, h3⟩ := of_decide_eq_true hvalid.1
        have hsp : stepOp (a, c) (ArrOp.rangeSum l r)
            = (a, (range_sum_with_cache a l r c).2) := rfl
        rw [hsp]
        exact ⟨hn, coherent_rangeSum hcoh h1 h2 (by omega)⟩
      | update i v =>
        obtain ⟨h1, h2⟩ := of_decide_eq_true hvalid.1
        have hupd := update_with_cache_of_inbounds (a := a) v c h1 (by omega)
        have hsp : stepOp (a, c) (ArrOp.update i v)
            = (a.set i.toNat v, c.invalidate i) := by
          simp only [stepOp, hupd]
        rw [hsp]
        refine ⟨?_, coherent_update hcoh v h1 (by omega)⟩
        rw [List.length_set]
        exact hn
    have hrec := coherent_runArr n ops (stepOp (a, c) op).1 (stepOp (a, c) op).2
      hstep.1 hstep.2 hvalid.2
    rw [runArr] at hrec
    exact hrec

/-- C1: starting from a fresh cache of any capacity, after every valid
sequence of `range_sum_with_cache` and `update_with_cache` calls every key
`(left, right)` present in the cache maps to the true sum of the current
array over `array[left..right]`; a `get` on a key covering the updated
position, issued right after `update_with_cache` and before any re-store,
returns the MISS sentinel `-1`; and on any coherent state
`range_sum_with_cache` returns the true sum of the current array. -/
theorem C1_cache_coherence :
    (∀ (cap : Int) (a : List Int) (ops : List ArrOp),
        ops.all (opValidB a.length) = true →
        coherent (runArr ops (a, LRUCache.init cap)).1
          (runArr ops (a, LRUCache.init cap)).2) ∧
      (∀ (a : List Int) (i v : Int) (c : LRUCache) (a2 : List Int) (c2 : LRUCache),
        update_with_cache a i v c = some (a2, c2) →
        ∀ left right : Int, left ≤ i → i ≤ right → (c2.get (left, right)).1 = -1) ∧
      (∀ (a : List Int) (left right : Int) (c : LRUCache), coherent a c →
        (range_sum_with_cache a left right c).1 = range_sum_no_cache a left right) := by
  refine ⟨?_, ?_, ?_⟩
  · intro cap a ops hvalid
    exact (coherent_runArr a.length ops a (LRUCache.init cap) rfl
      (fun e he => absurd he (List.not_mem_nil e)) hvalid).2
  · intro a i v c a2 c2 hupd left right hl hr
    rw [update_with_cache_some hupd]
    exact get_invalidate_covering c hl hr
  · intro a left right c h
    exact rangeSum_correct h left right

/-- Witness for C1: the spec's concrete scenario B (array `[1,2,3,4,5]`,
cached `range_sum(0,4) = 15`, `update(2,100)`, recomputed
`range_sum(0,4) = 112`) is a valid call sequence and the final state is
coherent. -/
theorem C1_witness :
    ([ArrOp.rangeSum 0 4, ArrOp.update 2 100, ArrOp.rangeSum 0 4].all
        (opValidB ([1, 2, 3, 4, 5] : List Int).length) = true) ∧
      coherent
        (runArr [ArrOp.rangeSum 0 4, ArrOp.update 2 100, ArrOp.rangeSum 0 4]
          ([1, 2, 3, 4, 5], LRUCache.init 1000)).1
        (runArr [ArrOp.rangeSum 0 4, ArrOp.update 2 100, ArrOp.rangeSum 0 4]
          ([1, 2, 3, 4, 5], LRUCache.init 1000)).2 :=
  ⟨by decide,
    C1_cache_coherence.1 1000 [1, 2, 3, 4, 5]
      [ArrOp.rangeSum 0 4, ArrOp.update 2 100, ArrOp.rangeSum 0 4] (by decide)⟩

/-! ## Claim C6: out-of-bounds ranges -/

/-- Counterexample to C6: an out-of-bounds range does not surface as an
index-out-of-range failure from the range-sum helpers.  Python slicing clamps
the bounds, so `range_sum_no_cache([1,2,3], 0, 10)` returns `6` (and the
cached variant returns the same), and an inverted range returns `0`; no
failure occurs on any range input. -/
theorem C6_counterexample :
    range_sum_no_cache [1, 2, 3] 0 10 = 6 ∧
      (range_sum_with_cache [1, 2, 3] 0 10 (LRUCache.init 5)).1 = 6 ∧
      range_sum_no_cache [1, 2, 3] 2 0 = 0 := by
  decide

/-- C6 amended: the range-sum helpers perform no validation and can never
raise: slice semantics clamp the bounds, giving `0` for an inverted
(non-negative) range and the suffix sum when `right` runs past the end.
Index-out-of-range failures arise only in the update helpers, whose element
assignment fails exactly when the index is outside `[-len, len)`. -/
theorem C6_no_range_validation (a : List Int) (left right index value : Int) :
    (0 ≤ right → right < left → range_sum_no_cache a left right = 0) ∧
      (0 ≤ left → (a.length : Int) ≤ right →
        range_sum_no_cache a left right = (a.drop left.toNat).sum) ∧
      ((a.length : Int) ≤ index →
        update_no_cache a index value = none ∧
          ∀ c : LRUCache, update_with_cache a index value c = none) ∧
      (index < -(a.length : Int) → update_no_cache a index value = none) := by
  refine ⟨?_, ?_, ?_, ?_⟩
  · intro hr hrl
    rw [range_sum_no_cache, pySlice]
    have hstop : sliceIdx a.length (right + 1) ≤ sliceIdx a.length left := by
      rw [sliceIdx, if_neg (by omega), sliceIdx, if_neg (by omega)]
      exact min_le_min (by omega) (le_refl a.length)
    have hlen : (a.take (sliceIdx a.length (right + 1))).length
        ≤ sliceIdx a.length left := by
      rw [List.length_take]
      exact le_trans (min_le_left _ _) hstop
    rw [List.drop_eq_nil_of_le hlen]
    rfl
  · intro hl hr
    rw [range_sum_no_cache, pySlice]
    have hstop : sliceIdx a.length (right + 1) = a.length := by
      rw [sliceIdx, if_neg (by omega)]
      exact Nat.min_eq_right (by omega)
    rw [hstop, List.take_length, sliceIdx, if_neg (by omega)]
    by_cases hcase : left.toNat ≤ a.length
    · rw [Nat.min_eq_left hcase]
    · rw [Nat.min_eq_right (by omega), List.drop_length,
        List.drop_eq_nil_of_le (by omega)]
  · intro hind
    have hnone : pySetItem a index value = none := by
      rw [pySetItem, pyIndex_of_nonneg (by omega), if_neg (by omega)]
    refine ⟨hnone, fun c => ?_⟩
    rw [update_with_cache, hnone]
  · intro hind
    have hneg : pyIndex a index = index + (a.length : Int) := by
      rw [pyIndex, if_pos (by omega)]
    rw [update_no_cache, pySetItem, hneg, if_neg (by omega)]

/-- Witness for the amended C6 at concrete out-of-bounds inputs. -/
theorem C6_witness :
    range_sum_no_cache [1, 2, 3] 0 7 = (([1, 2, 3] : List Int).drop (0 : Int).toNat).sum ∧
      update_no_cache [1, 2, 3] 7 9 = none ∧
      update_with_cache [1, 2, 3] 7 9 (LRUCache.init 1) = none ∧
      update_no_cache [1, 2, 3] (-9) 4 = none :=
  ⟨(C6_no_range_validation [1, 2, 3] 0 7 7 9).2.1 (by decide) (by decide),
    ((C6_no_range_validation [1, 2, 3] 0 7 7 9).2.2.1 (by decide)).1,
    ((C6_no_range_validation [1, 2, 3] 0 7 7 9).2.2.1 (by decide)).2 (LRUCache.init 1),
    (C6_no_range_validation [1, 2, 3] 0 7 (-9) 4).2.2.2 (by decide)⟩

/-! ## Lemmas: the splay tree -/

theorem plug_inorder_congr :
    ∀ (ctx : List Frame) {t1 t2 : SplayTree}, t1.inorder = t2.inorder →
      (plug t1 ctx).inorder = (plug t2 ctx).inorder
  | [], _, _, h => h
  | ⟨Dir.L, k, v, sib⟩ :: rest, t1, t2, h =>
    plug_inorder_congr rest
      (by rw [SplayTree.inorder, SplayTree.inorder, h])
  | ⟨Dir.R, k, v, sib⟩ :: rest, t1, t2, h =>
    plug_inorder_congr rest
      (by rw [SplayTree.inorder, SplayTree.inorder, h])

theorem splay_inorder :
    ∀ (ctx : List Frame) (xk xv : Int) (xl xr : SplayTree),
      (splay (SplayTree.node xk xv xl xr) ctx).inorder
        = (plug (SplayTree.node xk xv xl xr) ctx).inorder
  | [], xk, xv, xl, xr => rfl
  | ⟨Dir.L, k, v, sib⟩ :: [], xk, xv, xl, xr => by
    simp [splay, plug, SplayTree.inorder, List.append_assoc]
  | ⟨Dir.R, k, v, sib⟩ :: [], xk, xv, xl, xr => by
    simp [splay, plug, SplayTree.inorder, List.append_assoc]
  | ⟨d1, k1, v1, s1⟩ :: ⟨d2, k2, v2, s2⟩ :: rest, xk, xv, xl, xr => by
    cases d1 <;> cases d2 <;>
      (simp only [splay, plug]
       rw [splay_inorder rest]
       refine plug_inorder_congr rest ?_
       simp [SplayTree.inorder, List.append_assoc])

theorem splay_node_shape :
    ∀ (ctx : List Frame) (xk xv : Int) (xl xr : SplayTree),
      ∃ l2 r2, splay (SplayTree.node xk xv xl xr) ctx = SplayTree.node xk xv l2 r2
  | [], xk, xv, xl, xr => ⟨xl, xr, rfl⟩
  | ⟨Dir.L, k, v, sib⟩ :: [], xk, xv, xl, xr =>
    ⟨xl, SplayTree.node k v xr sib, rfl⟩
  | ⟨Dir.R, k, v, sib⟩ :: [], xk, xv, xl, xr =>
    ⟨SplayTree.node k v sib xl, xr, rfl⟩
  | ⟨d1, k1, v1, s1⟩ :: ⟨d2, k2, v2, s2⟩ :: rest, xk, xv, xl, xr => by
    cases d1 <;> cases d2 <;>
      (simp only [splay]
       exact splay_node_shape rest _ _ _ _)

theorem findGo_inorder :
    ∀ (t : SplayTree), t ≠ SplayTree.nil → ∀ (key : Int) (ctx : List Frame),
      ((findGo t key ctx).2).inorder = (plug t ctx).inorder
  | SplayTree.nil, h => absurd rfl h
  | SplayTree.node k v l r, _ => by
    intro key ctx
    rw [findGo]
    by_cases hk : key = k
    · rw [if_pos hk]
      exact splay_inorder ctx k v l r
    · rw [if_neg hk]
      by_cases hlt : key < k
      · rw [if_pos hlt]
        by_cases hl : l = SplayTree.nil
        · rw [if_pos hl]
          exact splay_inorder ctx k v l r
        · rw [if_neg hl]
          rw [findGo_inorder l hl key (⟨Dir.L, k, v, r⟩ :: ctx)]
          rfl
      · rw [if_neg hlt]
        by_cases hr : r = SplayTree.nil
        · rw [if_pos hr]
          exact splay_inorder ctx k v l r
        · rw [if_neg hr]
          rw [findGo_inorder r hr key (⟨Dir.R, k, v, l⟩ :: ctx)]
          rfl

theorem findGo_rootKey :
    ∀ (t : SplayTree), t ≠ SplayTree.nil → ∀ (key : Int) (ctx : List Frame),
      ((findGo t key ctx).2).rootKey = descendLast t key
  | SplayTree.nil, h => absurd rfl h
  | SplayTree.node k v l r, _ => by
    intro key ctx
    rw [findGo, descendLast]
    by_cases hk : key = k
    · rw [if_pos hk, if_pos hk]
      obtain ⟨l2, r2, heq⟩ := splay_node_shape ctx k v l r
      rw [heq]
      rfl
    · rw [if_neg hk, if_neg hk]
      by_cases hlt : key < k
      · rw [if_pos hlt, if_pos hlt]
        by_cases hl : l = SplayTree.nil
        · rw [if_pos hl, if_pos hl]
          obtain ⟨l2, r2, heq⟩ := splay_node_shape ctx k v l r
          rw [heq]
          rfl
        · rw [if_neg hl, if_neg hl]
          exact findGo_rootKey l hl key (⟨Dir.L, k, v, r⟩ :: ctx)
      · rw [if_neg hlt, if_neg hlt]
        by_cases hr : r = SplayTree.nil
        · rw [if_pos hr, if_pos hr]
          obtain ⟨l2, r2, heq⟩ := splay_node_shape ctx k v l r
          rw [heq]
          rfl
        · rw [if_neg hr, if_neg hr]
          exact findGo_rootKey r hr key (⟨Dir.R, k, v, l⟩ :: ctx)

theorem findGo_some_mem :
    ∀ (t : SplayTree) (key : Int) (ctx : List Frame) (v : Int),
      (findGo t key ctx).1 = some v → (key, v) ∈ t.inorder
  | SplayTree.nil, key, ctx, v => by
    intro h
    simp [findGo] at h
  | SplayTree.node k v0 l r, key, ctx, v => by
    intro h
    rw [findGo] at h
    by_cases hk : key = k
    · rw [if_pos hk] at h
      simp only [Option.some.injEq] at h
      subst hk
      subst h
      rw [SplayTree.inorder]
      exact List.mem_append.2 (Or.inr (List.mem_cons_self _ _))
    · rw [if_neg hk] at h
      by_cases hlt : key < k
      · rw [if_pos hlt] at h
        by_cases hl : l = SplayTree.nil
        · rw [if_pos hl] at h
          simp at h
        · rw [if_neg hl] at h
          have := findGo_some_mem l key (⟨Dir.L, k, v0, r⟩ :: ctx) v h
          rw [SplayTree.inorder]
          exact List.mem_append.2 (Or.inl this)
      · rw [if_neg hlt] at h
        by_cases hr : r = SplayTree.nil
        · rw [if_pos hr] at h
          simp at h
        · rw [if_neg hr] at h
          have := findGo_some_mem r key (⟨Dir.R, k, v0, l⟩ :: ctx) v h
          rw [SplayTree.inorder]
          exact List.mem_append.2 (Or.inr (List.mem_cons_of_mem _ this))

theorem get_inorder (t : SplayTree) (key : Int) :
    ((t.get key).2).inorder = t.inorder := by
  cases t with
  | nil => rfl
  | node k v l r =>
    exact findGo_inorder (SplayTree.node k v l r) (by intro hc; cases hc) key []

theorem get_rootKey {t : SplayTree} (h : t ≠ SplayTree.nil) (key : Int) :
    ((t.get key).2).rootKey = descendLast t key := by
  cases t with
  | nil => exact absurd rfl h
  | node k v l r =>
    exact findGo_rootKey (SplayTree.node k v l r) (by intro hc; cases hc) key []

theorem get_some_mem {t : SplayTree} {key v : Int} (h : (t.get key).1 = some v) :
    (key, v) ∈ t.inorder := by
  cases t with
  | nil => simp [SplayTree.get] at h
  | node k v0 l r => exact findGo_some_mem (SplayTree.node k v0 l r) key [] v h

theorem insertGo_inorder :
    ∀ (t : SplayTree), t ≠ SplayTree.nil → ∀ (key value : Int) (ctx : List Frame),
      (insertGo t key value ctx).inorder = (plug (rawInsert t key value) ctx).inorder
  | SplayTree.nil, h => absurd rfl h
  | SplayTree.node k v l r, _ => by
    intro key value ctx
    rw [insertGo, rawInsert]
    by_cases hk : key = k
    · rw [if_pos hk, if_pos hk]
      exact splay_inorder ctx k value l r
    · rw [if_neg hk, if_neg hk]
      by_cases hlt : key < k
      · rw [if_pos hlt, if_pos hlt]
        by_cases hl : l = SplayTree.nil
        · rw [if_pos hl, hl, splay_inorder (⟨Dir.L, k, v, r⟩ :: ctx) key value
            SplayTree.nil SplayTree.nil]
          rfl
        · rw [if_neg hl]
          rw [insertGo_inorder l hl key value (⟨Dir.L, k, v, r⟩ :: ctx)]
          rfl
      · rw [if_neg hlt, if_neg hlt]
        by_cases hr : r = SplayTree.nil
        · rw [if_pos hr, hr, splay_inorder (⟨Dir.R, k, v, l⟩ :: ctx) key value
            SplayTree.nil SplayTree.nil]
          rfl
        · rw [if_neg hr]
          rw [insertGo_inorder r hr key value (⟨Dir.R, k, v, l⟩ :: ctx)]
          rfl

theorem insert_inorder (t : SplayTree) (key value : Int) :
    (t.insert key value).inorder = (rawInsert t key value).inorder := by
  cases t with
  | nil => rfl
  | node k v l r =>
    exact insertGo_inorder (SplayTree.node k v l r) (by intro hc; cases hc) key value []

theorem insertGo_shape :
    ∀ (t : SplayTree), t ≠ SplayTree.nil → ∀ (key value : Int) (ctx : List Frame),
      ∃ l2 r2, insertGo t key value ctx = SplayTree.node key value l2 r2
  | SplayTree.nil, h => absurd rfl h
  | SplayTree.node k v l r, _ => by
    intro key value ctx
    rw [insertGo]
    by_cases hk : key = k
    · rw [if_pos hk]
      subst hk
      exact splay_node_shape ctx key value l r
    · rw [if_neg hk]
      by_cases hlt : key < k
      · rw [if_pos hlt]
        by_cases hl : l = SplayTree.nil
        · rw [if_pos hl]
          exact splay_node_shape (⟨Dir.L, k, v, r⟩ :: ctx) key value
            SplayTree.nil SplayTree.nil
        · rw [if_neg hl]
          exact insertGo_shape l hl key value (⟨Dir.L, k, v, r⟩ :: ctx)
      · rw [if_neg hlt]
        by_cases hr : r = SplayTree.nil
        · rw [if_pos hr]
          exact splay_node_shape (⟨Dir.R, k, v, l⟩ :: ctx) key value
            SplayTree.nil SplayTree.nil
        · rw [if_neg hr]
          exact insertGo_shape r hr key value (⟨Dir.R, k, v, l⟩ :: ctx)

theorem insert_shape (t : SplayTree) (key value : Int) :
    ∃ l2 r2, t.insert key value = SplayTree.node key value l2 r2 := by
  cases t with
  | nil => exact ⟨SplayTree.nil, SplayTree.nil, rfl⟩
  | node k v l r =>
    exact insertGo_shape (SplayTree.node k v l r) (by intro hc; cases hc) key value []

theorem mem_rawInsert_inorder :
    ∀ (t : SplayTree) (key value : Int) (p : Int × Int),
      p ∈ (rawInsert t key value).inorder → p ∈ t.inorder ∨ p = (key, value)
  | SplayTree.nil, key, value, p => by
    intro h
    rw [rawInsert] at h
    simp [SplayTree.inorder] at h
    exact Or.inr h
  | SplayTree.node k v l r, key, value, p => by
    intro h
    rw [rawInsert] at h
    by_cases hk : key = k
    · rw [if_pos hk] at h
      rw [SplayTree.inorder] at h
      rcases List.mem_append.1 h with h1 | h1
      · exact Or.inl (by rw [SplayTree.inorder]; exact List.mem_append.2 (Or.inl h1))
      · rcases List.mem_cons.1 h1 with h2 | h2
        · subst hk
          exact Or.inr (by rw [h2])
        · exact Or.inl (by
            rw [SplayTree.inorder]
            exact List.mem_append.2 (Or.inr (List.mem_cons_of_mem _ h2)))
    · rw [if_neg hk] at h
      by_cases hlt : key < k
      · rw [if_pos hlt] at h
        rw [SplayTree.inorder] at h
        rcases List.mem_append.1 h with h1 | h1
        · rcases mem_rawInsert_inorder l key value p h1 with h2 | h2
          · exact Or.inl (by rw [SplayTree.inorder]; exact List.mem_append.2 (Or.inl h2))
          · exact Or.inr h2
        · exact Or.inl (by rw [SplayTree.inorder]; exact List.mem_append.2 (Or.inr h1))
      · rw [if_neg hlt] at h
        rw [SplayTree.inorder] at h
        rcases List.mem_append.1 h with h1 | h1
        · exact Or.inl (by rw [SplayTree.inorder]; exact List.mem_append.2 (Or.inl h1))
        · rcases List.mem_cons.1 h1 with h2 | h2
          · exact Or.inl (by
              rw [SplayTree.inorder]
              exact List.mem_append.2 (Or.inr (List.mem_cons.2 (Or.inl h2))))
          · rcases mem_rawInsert_inorder r key value p h2 with h3 | h3
            · exact Or.inl (by
                rw [SplayTree.inorder]
                exact List.mem_append.2 (Or.inr (List.mem_cons_of_mem _ h3)))
            · exact Or.inr h3

theorem keys_node (k v : Int) (l r : SplayTree) :
    (SplayTree.node k v l r).keys = l.keys ++ k :: r.keys := by
  rw [SplayTree.keys, SplayTree.inorder, List.map_append, List.map_cons]
  rfl

theorem mem_keys_rawInsert :
    ∀ (t : SplayTree) (key value : Int) (x : Int),
      x ∈ (rawInsert t key value).keys → x ∈ t.keys ∨ x = key := by
  intro t key value x hx
  rw [SplayTree.keys] at hx
  rcases List.mem_map.1 hx with ⟨p, hp, hpx⟩
  rcases mem_rawInsert_inorder t key value p hp with h1 | h1
  · exact Or.inl (by rw [SplayTree.keys]; exact hpx ▸ List.mem_map_of_mem Prod.fst h1)
  · subst h1
    exact Or.inr hpx.symm

theorem sorted_keys_rawInsert :
    ∀ (t : SplayTree) (key value : Int), List.Pairwise (· < ·) t.keys →
      List.Pairwise (· < ·) (rawInsert t key value).keys
  | SplayTree.nil, key, value, _ => by
    rw [rawInsert, keys_node]
    simp [SplayTree.keys, SplayTree.inorder]
  | SplayTree.node k v l r, key, value, hs => by
    rw [keys_node, List.pairwise_append] at hs
    obtain ⟨hl, hkr, hcross⟩ := hs
    rw [List.pairwise_cons] at hkr
    obtain ⟨hkltr, hr⟩ := hkr
    rw [rawInsert]
    by_cases hk : key = k
    · rw [if_pos hk, keys_node, List.pairwise_append, List.pairwise_cons]
      exact ⟨hl, ⟨hkltr, hr⟩, hcross⟩
    · rw [if_neg hk]
      by_cases hlt : key < k
      · rw [if_pos hlt, keys_node, List.pairwise_append, List.pairwise_cons]
        refine ⟨sorted_keys_rawInsert l key value hl, ⟨hkltr, hr⟩, ?_⟩
        intro x hx b hb
        rcases mem_keys_rawInsert l key value x hx with hx1 | hx1
        · exact hcross x hx1 b hb
        · subst hx1
          rcases List.mem_cons.1 hb with hb1 | hb1
          · rw [hb1]
            exact hlt
          · exact lt_trans hlt (hkltr b hb1)
      · have hgt : k < key := by omega
        rw [if_neg hlt, keys_node, List.pairwise_append, List.pairwise_cons]
        refine ⟨hl, ⟨?_, sorted_keys_rawInsert r key value hr⟩, ?_⟩
        · intro b hb
          rcases mem_keys_rawInsert r key value b hb with hb1 | hb1
          · exact hkltr b hb1
          · rw [hb1]
            exact hgt
        · intro a ha b hb
          rcases List.mem_cons.1 hb with hb1 | hb1
          · rw [hb1]
            exact hcross a ha k (List.mem_cons_self k r.keys)
          · rcases mem_keys_rawInsert r key value b hb1 with hb2 | hb2
            · exact hcross a ha b (List.mem_cons_of_mem k hb2)
            · rw [hb2]
              exact lt_trans (hcross a ha k (List.mem_cons_self k r.keys)) hgt

theorem keys_get (t : SplayTree) (key : Int) : ((t.get key).2).keys = t.keys := by
  rw [SplayTree.keys, SplayTree.keys, get_inorder]

theorem sorted_keys_applyOp {t : SplayTree} (h : List.Pairwise (· < ·) t.keys)
    (op : STreeOp) : List.Pairwise (· < ·) (t.applyOp op).keys := by
  cases op with
  | get key =>
    show List.Pairwise (· < ·) ((t.get key).2).keys
    rw [keys_get]
    exact h
  | insert key value =>
    show List.Pairwise (· < ·) ((t.insert key value)).keys
    rw [SplayTree.keys, insert_inorder]
    show List.Pairwise (· < ·) ((rawInsert t key value).keys)
    exact sorted_keys_rawInsert t key value h

theorem sorted_keys_runTree :
    ∀ (ops : List STreeOp) (t : SplayTree), List.Pairwise (· < ·) t.keys →
      List.Pairwise (· < ·) (runTree ops t).keys
  | [], _, h => h
  | op :: ops, t, h => by
    rw [runTree, List.foldl_cons]
    exact sorted_keys_runTree ops (t.applyOp op) (sorted_keys_applyOp h op)

theorem rightRotate_inorder (t : SplayTree) : (rightRotate t).inorder = t.inorder := by
  cases t with
  | nil => rfl
  | node k v l r =>
    cases l with
    | nil => rfl
    | node lk lv a b => simp [rightRotate, SplayTree.inorder, List.append_assoc]

theorem leftRotate_inorder (t : SplayTree) : (leftRotate t).inorder = t.inorder := by
  cases t with
  | nil => rfl
  | node k v l r =>
    cases r with
    | nil => rfl
    | node rk rv a b => simp [leftRotate, SplayTree.inorder, List.append_assoc]

/-! ## Claim C4: BST ordering preserved -/

/-- C4: from an initially empty tree, every sequence of `insert`/`get` calls
leaves a tree whose in-order key sequence is strictly increasing, and each
single left or right rotation preserves the in-order traversal (keys and
values) of the subtree it rotates. -/
theorem C4_bst_ordering :
    (∀ ops : List STreeOp,
        List.Pairwise (· < ·) (runTree ops SplayTree.nil).keys) ∧
      (∀ t : SplayTree,
        (rightRotate t).inorder = t.inorder ∧ (leftRotate t).inorder = t.inorder) := by
  constructor
  · intro ops
    exact sorted_keys_runTree ops SplayTree.nil (by simp [SplayTree.keys, SplayTree.inorder])
  · intro t
    exact ⟨rightRotate_inorder t, leftRotate_inorder t⟩

/-! ## Claim C3: self-adjustment invariant -/

theorem size_eq_length_inorder : ∀ t : SplayTree, t.size = t.inorder.length
  | SplayTree.nil => rfl
  | SplayTree.node k v l r => by
    rw [SplayTree.size, SplayTree.inorder, List.length_append, List.length_cons,
      size_eq_length_inorder l, size_eq_length_inorder r]
    omega

theorem rawInsert_length_of_found :
    ∀ (t : SplayTree) (key value : Int), descendLast t key = some key →
      (rawInsert t key value).inorder.length = t.inorder.length
  | SplayTree.nil, key, value, h => by
    rw [descendLast] at h
    exact absurd h (by simp)
  | SplayTree.node k v l r, key, value, h => by
    rw [descendLast] at h
    rw [rawInsert]
    by_cases hk : key = k
    · rw [if_pos hk]
      rw [SplayTree.inorder, SplayTree.inorder, List.length_append, List.length_append,
        List.length_cons, List.length_cons]
    · rw [if_neg hk] at h ⊢
      by_cases hlt : key < k
      · rw [if_pos hlt] at h ⊢
        by_cases hl : l = SplayTree.nil
        · rw [if_pos hl] at h
          simp only [Option.some.injEq] at h
          exact absurd h.symm hk
        · rw [if_neg hl] at h
          rw [SplayTree.inorder, SplayTree.inorder, List.length_append, List.length_append,
            rawInsert_length_of_found l key value h]
      · rw [if_neg hlt] at h ⊢
        by_cases hr : r = SplayTree.nil
        · rw [if_pos hr] at h
          simp only [Option.some.injEq] at h
          exact absurd h.symm hk
        · rw [if_neg hr] at h
          rw [SplayTree.inorder, SplayTree.inorder, List.length_append, List.length_append,
            List.length_cons, List.length_cons, rawInsert_length_of_found r key value h]

theorem insert_then_get (t : SplayTree) (key value : Int) :
    ((t.insert key value).get key).1 = some value := by
  obtain ⟨l2, r2, heq⟩ := insert_shape t key value
  rw [heq, SplayTree.get, findGo, if_pos rfl]

/-- C3: after a `get` on a non-empty tree the new root's key is the key of
the last node visited by the descent (the found node on a hit, the node with
the missing child on a miss); a `get` on the empty tree answers ABSENT
(`none`) with no adjustment; after every `insert` the inserted or overwritten
key sits at the root (a first insert into the empty tree trivially so); and a
repeated insert of an existing key creates no node (the size is unchanged)
and overwrites the value, which the next `get` returns. -/
theorem C3_splay_to_root :
    (∀ (t : SplayTree) (key : Int), t ≠ SplayTree.nil →
        ((t.get key).2).rootKey = descendLast t key) ∧
      (∀ key : Int, SplayTree.nil.get key = (none, SplayTree.nil)) ∧
      (∀ (t : SplayTree) (key value : Int), (t.insert key value).rootKey = some key) ∧
      (∀ (t : SplayTree) (key value : Int), descendLast t key = some key →
        (t.insert key value).size = t.size) ∧
      (∀ (t : SplayTree) (key value : Int), ((t.insert key value).get key).1 = some value) := by
  refine ⟨?_, ?_, ?_, ?_, ?_⟩
  · intro t key h
    exact get_rootKey h key
  · intro key
    rfl
  · intro t key value
    obtain ⟨l2, r2, heq⟩ := insert_shape t key value
    rw [heq]
    rfl
  · intro t key value h
    rw [size_eq_length_inorder, size_eq_length_inorder, insert_inorder]
    exact rawInsert_length_of_found t key value h
  · intro t key value
    exact insert_then_get t key value

/-- Witness for C3 at the spec's concrete scenario C tree
(`insert 5, insert 3, insert 8`): a missing key splays the last visited node
to the root, and re-inserting key 3 adds no node. -/
theorem C3_witness :
    ((((SplayTree.nil.insert 5 5).insert 3 3).insert 8 8).get 4).2.rootKey
        = descendLast (((SplayTree.nil.insert 5 5).insert 3 3).insert 8 8) 4 ∧
      ((((SplayTree.nil.insert 5 5).insert 3 3).insert 8 8).insert 3 99).size
        = (((SplayTree.nil.insert 5 5).insert 3 3).insert 8 8).size :=
  ⟨C3_splay_to_root.1 (((SplayTree.nil.insert 5 5).insert 3 3).insert 8 8) 4 (by decide),
    C3_splay_to_root.2.2.2.1 (((SplayTree.nil.insert 5 5).insert 3 3).insert 8 8) 3 99
      (by decide)⟩

/-! ## Claim C10: the two memoized Fibonacci functions agree -/

theorem fibonacci_lru_eq_fib :
    ∀ (m : Nat) (n : Int), n.toNat ≤ m → 0 ≤ n →
      fibonacci_lru n = (Nat.fib n.toNat : Int)
  | 0, n, hm, hn => by
    have h0 : n = 0 := by omega
    subst h0
    rw [fibonacci_lru]
    norm_num
  | m + 1, n, hm, hn => by
    rw [fibonacci_lru]
    by_cases h2 : n < 2
    · rw [if_pos h2]
      have : n = 0 ∨ n = 1 := by omega
      rcases this with h | h <;> subst h <;> norm_num
    · rw [if_neg h2]
      rw [fibonacci_lru_eq_fib m (n - 1) (by omega) (by omega),
        fibonacci_lru_eq_fib m (n - 2) (by omega) (by omega)]
      obtain ⟨k, hk⟩ : ∃ k, n.toNat = k + 2 := ⟨n.toNat - 2, by omega⟩
      have e1 : (n - 1).toNat = k + 1 := by omega
      have e2 : (n - 2).toNat = k := by omega
      rw [e1, e2, hk, Nat.fib_add_two]
      push_cast
      ring

theorem FibInv_get {t : SplayTree} (h : FibInv t) (key : Int) :
    FibInv ((t.get key).2) := by
  intro p hp
  rw [get_inorder] at hp
  exact h p hp

theorem FibInv_insert {t : SplayTree} (h : FibInv t) {k v : Int}
    (hv : v = fibonacci_lru k) : FibInv (t.insert k v) := by
  intro p hp
  rw [insert_inorder] at hp
  rcases mem_rawInsert_inorder t k v p hp with h1 | h1
  · exact h p h1
  · rw [h1]
    exact hv

theorem fib_splay_invariant :
    ∀ (m : Nat) (n : Int) (t : SplayTree), n.toNat ≤ m → FibInv t →
      (fibonacci_splay n t).1 = fibonacci_lru n ∧ FibInv (fibonacci_splay n t).2 := by
  intro m
  induction m with
  | zero =>
    intro n t hm ht
    rw [fibonacci_splay]
    cases hget : (t.get n).1 with
    | some v =>
      exact ⟨ht (n, v) (get_some_mem hget), FibInv_get ht n⟩
    | none =>
      dsimp only
      have hn2 : n < 2 := by omega
      rw [if_pos hn2]
      constructor
      · show n = fibonacci_lru n
        rw [fibonacci_lru, if_pos hn2]
      · exact FibInv_insert (FibInv_get ht n) (by rw [fibonacci_lru, if_pos hn2])
  | succ m ih =>
    intro n t hm ht
    rw [fibonacci_splay]
    cases hget : (t.get n).1 with
    | some v =>
      exact ⟨ht (n, v) (get_some_mem hget), FibInv_get ht n⟩
    | none =>
      dsimp only
      by_cases hn2 : n < 2
      · rw [if_pos hn2]
        constructor
        · show n = fibonacci_lru n
          rw [fibonacci_lru, if_pos hn2]
        · exact FibInv_insert (FibInv_get ht n) (by rw [fibonacci_lru, if_pos hn2])
      · rw [if_neg hn2]
        have h1 := ih (n - 1) (t.get n).2 (by omega) (FibInv_get ht n)
        have h2 := ih (n - 2) (fibonacci_splay (n - 1) (t.get n).2).2 (by omega) h1.2
        have hfib : fibonacci_lru n = fibonacci_lru (n - 1) + fibonacci_lru (n - 2) := by
          rw [fibonacci_lru, if_neg hn2]
        constructor
        · show (fibonacci_splay (n - 1) (t.get n).2).1
              + (fibonacci_splay (n - 2) (fibonacci_splay (n - 1) (t.get n).2).2).1
            = fibonacci_lru n
          rw [h1.1, h2.1, hfib]
        · exact FibInv_insert h2.2 (by rw [h1.1, h2.1, hfib])

/-- C10: on a freshly constructed (empty) splay tree, `fibonacci_splay`
returns the same value as `fibonacci_lru`, and both compute the n-th
Fibonacci number (F(0) = 0, F(1) = 1, F(n) = F(n-1) + F(n-2)). -/
theorem C10_fibonacci_agreement (n : Int) (hn : 0 ≤ n) :
    (fibonacci_splay n SplayTree.nil).1 = fibonacci_lru n ∧
      fibonacci_lru n = (Nat.fib n.toNat : Int) := by
  refine ⟨?_, fibonacci_lru_eq_fib n.toNat n (le_refl _) hn⟩
  exact (fib_splay_invariant n.toNat n SplayTree.nil (le_refl _)
    (fun p hp => absurd hp (List.not_mem_nil p))).1

/-- Witness for C10 at `n = 10` (both sides equal `F(10) = 55`). -/
theorem C10_witness :
    (0 : Int) ≤ 10 ∧
      ((fibonacci_splay 10 SplayTree.nil).1 = fibonacci_lru 10 ∧
        fibonacci_lru 10 = (Nat.fib (10 : Int).toNat : Int)) :=
  ⟨by decide, C10_fibonacci_agreement 10 (by decide)⟩
